import Mathlib

/-!
Shallow embedding of the evremap event-resolution core
(`src/remapper/types.rs`, `src/remapper/event_logic.rs`,
`src/remapper/machine.rs`, `src/mapping.rs`).

Key identifiers (`EV_KEY` from evdev, re-exported as `KeyCode`) form a flat
enumeration; only the nine modifier variants are distinguished by the core
logic, so the embedding keeps those nine as named constructors and indexes
every other key by a natural number.

Rust `HashSet<KeyCode>` values are embedded as duplicate-free lists with the
iteration order left abstract: every theorem below either speaks only about
membership (the level at which `HashSet` equality and the set operations are
defined) or quantifies over an arbitrary ordering of the set's elements.
-/

namespace Evremap

/-- Embedding of evdev `EV_KEY` (`pub use evdev_rs::enums::EV_KEY as KeyCode`
in `src/mapping.rs`): the nine modifier keys matched by `is_modifier` are
named constructors; all remaining key variants are `KEY_OTHER n`. -/
inductive KeyCode where
  | KEY_FN
  | KEY_LEFTALT
  | KEY_RIGHTALT
  | KEY_LEFTMETA
  | KEY_RIGHTMETA
  | KEY_LEFTCTRL
  | KEY_RIGHTCTRL
  | KEY_LEFTSHIFT
  | KEY_RIGHTSHIFT
  | KEY_OTHER (n : Nat)
deriving DecidableEq

/-- `evdev_rs::TimeVal`: the timestamp carried by every event. -/
structure TimeVal where
  tv_sec : Int
  tv_usec : Int
deriving DecidableEq

/-- `KeyEventType` from `src/remapper/types.rs`. -/
inductive KeyEventType where
  | Release
  | Press
  | Repeat
  | Unknown (n : Int)
deriving DecidableEq

/-- `KeyEventType::from_value` from `src/remapper/types.rs`. -/
def KeyEventType.from_value (value : Int) : KeyEventType :=
  if value = 0 then .Release
  else if value = 1 then .Press
  else if value = 2 then .Repeat
  else .Unknown value

/-- `KeyEventType::value` from `src/remapper/types.rs`. -/
def KeyEventType.value : KeyEventType → Int
  | .Release => 0
  | .Press => 1
  | .Repeat => 2
  | .Unknown n => n

/-- `EvKeyEvent` from `src/remapper/types.rs`. -/
structure EvKeyEvent where
  time : TimeVal
  ev_key : KeyCode
  key_event_type : KeyEventType
deriving DecidableEq

/-- A `HashSet<KeyCode>` is embedded as a list of keys; machine-maintained
sets are duplicate-free (`List.Nodup`), and iteration order is abstract. -/
abbrev KeySet := List KeyCode

/-- `HashSet::contains`. -/
def containsKey (s : KeySet) (k : KeyCode) : Bool :=
  decide (k ∈ s)

/-- `HashSet::insert`: adds the key only when absent.  The position of the
new key is irrelevant to every membership-level statement below. -/
def insertKey (s : KeySet) (k : KeyCode) : KeySet :=
  if k ∈ s then s else s ++ [k]

/-- `HashSet::remove`: drops the key when present (a no-op otherwise). -/
def removeKey (s : KeySet) (k : KeyCode) : KeySet :=
  s.filter fun x => decide (x ≠ k)

/-- `HashSet::is_subset` (equivalently `b.is_superset(a)`). -/
def isSubset (a b : KeySet) : Bool :=
  decide (∀ k ∈ a, k ∈ b)

/-- `HashSet::difference(...).cloned().collect::<Vec<_>>()`: the elements of
`a` not in `b`, in `a`'s iteration order. -/
def keyDiff (a b : KeySet) : KeySet :=
  a.filter fun k => decide (k ∉ b)

/-- `Mapping` from `src/mapping.rs` (the sole `Remap` variant). -/
inductive Mapping where
  | Remap (input : KeySet) (output : KeySet)
deriving DecidableEq

/-- `is_modifier` from `src/remapper/event_logic.rs`. -/
def is_modifier (key : KeyCode) : Bool :=
  match key with
  | .KEY_FN
  | .KEY_LEFTALT
  | .KEY_RIGHTALT
  | .KEY_LEFTMETA
  | .KEY_RIGHTMETA
  | .KEY_LEFTCTRL
  | .KEY_RIGHTCTRL
  | .KEY_LEFTSHIFT
  | .KEY_RIGHTSHIFT => true
  | _ => false

/-- `modifiers_first` from `src/remapper/event_logic.rs`: orders modifier
keys ahead of non-modifier keys. -/
def modifiers_first (a b : KeyCode) : Ordering :=
  if is_modifier a then
    if is_modifier b then Ordering.eq else Ordering.lt
  else if is_modifier b then Ordering.gt
  else Ordering.eq

/-- `modifiers_last` from `src/remapper/event_logic.rs`
(`modifiers_first(a, b).reverse()`). -/
def modifiers_last (a b : KeyCode) : Ordering :=
  (modifiers_first a b).swap

/-- One step of a stable insertion sort: the new element `x` is placed
before the first element it does not compare `gt` against, so elements that
compare `eq` keep their original relative order. -/
def insertOrd (cmp : KeyCode → KeyCode → Ordering) (x : KeyCode) :
    List KeyCode → List KeyCode
  | [] => [x]
  | y :: ys =>
    if cmp x y = Ordering.gt then y :: insertOrd cmp x ys else x :: y :: ys

/-- `Vec::sort_by`: Rust's sort is stable, and a stable sort by a comparator
that induces a total preorder (both comparators above do) has a unique
result, here realised as a stable insertion sort. -/
def sortByOrd (cmp : KeyCode → KeyCode → Ordering) (l : List KeyCode) :
    List KeyCode :=
  l.foldr (insertOrd cmp) []

/-- `apply_mapping_to_held_keys` from `src/remapper/event_logic.rs`: start
from the pressed keys and fold every mapping over the working set in
configuration order. -/
def apply_mapping_to_held_keys (mappings : List Mapping)
    (currently_pressed_keys : KeySet) : KeySet :=
  mappings.foldl
    (fun keys m =>
      match m with
      | Mapping.Remap input output =>
        if isSubset input keys then
          let keys1 := input.foldl
            (fun ks i => if is_modifier i then ks else removeKey ks i) keys
          output.foldl
            (fun ks o => if is_modifier o then ks else insertKey ks o) keys1
        else keys)
    currently_pressed_keys

/-- `compute_keys_based_on_state` from `src/remapper/event_logic.rs`. -/
def compute_keys_based_on_state (mappings : List Mapping)
    (currently_pressed_keys output_keys : KeySet) (time : TimeVal) :
    List EvKeyEvent :=
  let desired_keys := apply_mapping_to_held_keys mappings currently_pressed_keys
  let to_release := sortByOrd modifiers_last (keyDiff output_keys desired_keys)
  let to_press := sortByOrd modifiers_first (keyDiff desired_keys output_keys)
  (to_release.map fun ev_key =>
    { time := time, ev_key := ev_key, key_event_type := KeyEventType.Release })
  ++ (to_press.map fun ev_key =>
    { time := time, ev_key := ev_key, key_event_type := KeyEventType.Press })

/-- `lookup_mapping` from `src/remapper/event_logic.rs`: first mapping in
list order whose input contains `code` and is a subset of the pressed keys. -/
def lookup_mapping (mappings : List Mapping)
    (currently_pressed_keys : KeySet) (code : KeyCode) : Option Mapping :=
  mappings.find? fun m =>
    match m with
    | Mapping.Remap input _ =>
      containsKey input code && isSubset input currently_pressed_keys

/-- `Machine` from `src/remapper/machine.rs`. -/
structure Machine where
  input_state : KeySet
  output_keys : KeySet
  mappings : List Mapping

/-- `Machine::new`. -/
def Machine.new (mappings : List Mapping) : Machine :=
  { input_state := [], output_keys := [], mappings := mappings }

/-- `Machine::get_keys_to_emit` from `src/remapper/machine.rs`. -/
def Machine.get_keys_to_emit (m : Machine) (event : EvKeyEvent) :
    List EvKeyEvent :=
  match event.key_event_type with
  | .Press | .Release =>
    compute_keys_based_on_state m.mappings m.input_state m.output_keys
      event.time
  | .Repeat =>
    match lookup_mapping m.mappings m.input_state event.ev_key with
    | some (Mapping.Remap _ output) =>
      output.map fun ev_key =>
        { time := event.time, ev_key := ev_key,
          key_event_type := KeyEventType.Repeat }
    | none => [event]
  | .Unknown _ => [event]

/-- Body of the `for ev_key_event in &outgoing_events` loop in
`Machine::insert`: one outgoing event applied to `output_keys`. -/
def applyOutput (ks : KeySet) (e : EvKeyEvent) : KeySet :=
  match e.key_event_type with
  | .Press | .Repeat => insertKey ks e.ev_key
  | .Release => removeKey ks e.ev_key
  | _ => ks

/-- `Machine::insert` from `src/remapper/machine.rs`, with the mutation of
the receiver made explicit: returns the updated machine together with the
outgoing events. -/
def Machine.insert (m : Machine) (incoming_event : EvKeyEvent) :
    Machine × List EvKeyEvent :=
  let input_state' :=
    match incoming_event.key_event_type with
    | .Press => insertKey m.input_state incoming_event.ev_key
    | .Release => removeKey m.input_state incoming_event.ev_key
    | _ => m.input_state
  let m1 : Machine := { m with input_state := input_state' }
  let outgoing_events := m1.get_keys_to_emit incoming_event
  let output_keys' := outgoing_events.foldl applyOutput m1.output_keys
  ({ m1 with output_keys := output_keys' }, outgoing_events)

/-- Feeding a list of events through the machine one `insert` at a time
(the driver's read loop restricted to the core). -/
def runEvents (m : Machine) : List EvKeyEvent → Machine
  | [] => m
  | e :: es => runEvents (m.insert e).1 es

/-- Extensional equality of embedded key sets: exactly the equality used by
Rust `HashSet` values (same members, order irrelevant). -/
def eqSet (a b : KeySet) : Prop :=
  ∀ k : KeyCode, k ∈ a ↔ k ∈ b

/-- One step of the desired-state pass as worded in the specification
(section 4.2): when the rule's trigger is a subset of the working set,
remove the non-modifier trigger keys and insert the non-modifier produced
keys; otherwise leave the working set alone.  This definition follows the
spec's words and is compared against `apply_mapping_to_held_keys` (taken
from the source) in the refinement theorem for the desired-state claim. -/
def synthStep (W : KeySet) (rule : Mapping) : KeySet :=
  match rule with
  | Mapping.Remap trigger produced =>
    if isSubset trigger W then
      let W1 := trigger.foldl
        (fun ks i => if is_modifier i then ks else removeKey ks i) W
      produced.foldl
        (fun ks o => if is_modifier o then ks else insertKey ks o) W1
    else W

/-- `synthesizeDesiredKeys` as worded in the specification (section 4.2):
a single pass over the rules in configuration order, starting from a copy
of the physical held set. -/
def synthesizeDesiredKeys (rules : List Mapping) (physicalHeld : KeySet) :
    KeySet :=
  rules.foldl synthStep physicalHeld

/-- Rank of an outgoing event inside one synthesized batch: non-modifier
releases (0) come before modifier releases (1), which come before modifier
presses (2), which come before non-modifier presses (3).  The batch emitted
by `compute_keys_based_on_state` is sorted by this rank. -/
def emissionRank (e : EvKeyEvent) : Nat :=
  match e.key_event_type with
  | .Release => if is_modifier e.ev_key then 1 else 0
  | .Press => if is_modifier e.ev_key then 2 else 3
  | _ => 4

/-! ### Membership and nodup lemmas for the embedded set operations -/

theorem mem_insertKey {s : KeySet} {k x : KeyCode} :
    x ∈ insertKey s k ↔ x = k ∨ x ∈ s := by
  by_cases hk : k ∈ s
  · simp only [insertKey, if_pos hk]
    constructor
    · exact Or.inr
    · rintro (rfl | h)
      · exact hk
      · exact h
  · simp only [insertKey, if_neg hk, List.mem_append, List.mem_singleton]
    tauto

theorem mem_removeKey {s : KeySet} {k x : KeyCode} :
    x ∈ removeKey s k ↔ x ∈ s ∧ x ≠ k := by
  simp [removeKey, List.mem_filter]

theorem mem_keyDiff {a b : KeySet} {x : KeyCode} :
    x ∈ keyDiff a b ↔ x ∈ a ∧ x ∉ b := by
  simp [keyDiff, List.mem_filter]

theorem isSubset_iff {a b : KeySet} :
    isSubset a b = true ↔ ∀ k ∈ a, k ∈ b := by
  simp [isSubset]

theorem containsKey_iff {s : KeySet} {k : KeyCode} :
    containsKey s k = true ↔ k ∈ s := by
  simp [containsKey]

theorem nodup_insertKey {s : KeySet} {k : KeyCode} (h : s.Nodup) :
    (insertKey s k).Nodup := by
  by_cases hk : k ∈ s
  · simpa [insertKey, hk] using h
  · have happ : (s ++ [k]).Nodup := by
      rw [List.nodup_append]
      refine ⟨h, List.nodup_singleton k, ?_⟩
      intro a ha hak
      simp only [List.mem_singleton] at hak
      subst hak
      exact hk ha
    simpa [insertKey, hk] using happ

theorem nodup_removeKey {s : KeySet} {k : KeyCode} (h : s.Nodup) :
    (removeKey s k).Nodup :=
  List.Nodup.filter _ h

theorem nodup_keyDiff {a b : KeySet} (h : a.Nodup) :
    (keyDiff a b).Nodup :=
  List.Nodup.filter _ h

theorem nodup_foldl {α : Type} (f : KeySet → α → KeySet)
    (hf : ∀ s a, s.Nodup → (f s a).Nodup) :
    ∀ (l : List α) (s : KeySet), s.Nodup → (l.foldl f s).Nodup := by
  intro l
  induction l with
  | nil => intro s h; exact h
  | cons a l ih => intro s h; exact ih (f s a) (hf s a h)

/-! ### The stable sort and its characterization on the two comparators -/

theorem insertOrd_append (cmp : KeyCode → KeyCode → Ordering) (x : KeyCode)
    (A B : List KeyCode) (hA : ∀ a ∈ A, cmp x a = Ordering.gt)
    (hB : ∀ b ∈ B, cmp x b ≠ Ordering.gt) :
    insertOrd cmp x (A ++ B) = A ++ x :: B := by
  induction A with
  | nil =>
    cases B with
    | nil => rfl
    | cons b bs =>
      simp only [List.nil_append, insertOrd]
      rw [if_neg (hB b (by simp))]
  | cons a as ih =>
    rw [List.cons_append, insertOrd]
    rw [if_pos (hA a (by simp))]
    rw [ih (fun a' ha' => hA a' (List.mem_cons_of_mem _ ha'))]
    rw [List.cons_append]

theorem modifiers_last_eq_gt {a b : KeyCode} :
    modifiers_last a b = Ordering.gt ↔
      (is_modifier a = true ∧ is_modifier b = false) := by
  unfold modifiers_last modifiers_first
  cases ha : is_modifier a <;> cases hb : is_modifier b <;> simp [Ordering.swap]

theorem modifiers_first_eq_gt {a b : KeyCode} :
    modifiers_first a b = Ordering.gt ↔
      (is_modifier a = false ∧ is_modifier b = true) := by
  unfold modifiers_first
  cases ha : is_modifier a <;> cases hb : is_modifier b <;> simp

theorem sortByOrd_modifiers_last (l : List KeyCode) :
    sortByOrd modifiers_last l =
      (l.filter fun k => !is_modifier k) ++ (l.filter fun k => is_modifier k) := by
  induction l with
  | nil => rfl
  | cons x xs ih =>
    simp only [sortByOrd, List.foldr_cons] at *
    rw [ih]
    cases hx : is_modifier x with
    | false =>
      have hstep := insertOrd_append modifiers_last x []
        ((xs.filter fun k => !is_modifier k) ++ (xs.filter fun k => is_modifier k))
        (by intro a ha; cases ha)
        (by
          intro b _
          simp only [ne_eq, modifiers_last_eq_gt]
          simp [hx])
      simp only [List.nil_append] at hstep
      simp [hx, hstep]
    | true =>
      have hstep := insertOrd_append modifiers_last x
        (xs.filter fun k => !is_modifier k) (xs.filter fun k => is_modifier k)
        (by
          intro a ha
          rw [modifiers_last_eq_gt]
          simp only [List.mem_filter, Bool.not_eq_true'] at ha
          exact ⟨hx, ha.2⟩)
        (by
          intro b hb
          simp only [ne_eq, modifiers_last_eq_gt]
          simp only [List.mem_filter] at hb
          simp [hb.2])
      simp [hx, hstep]

theorem sortByOrd_modifiers_first (l : List KeyCode) :
    sortByOrd modifiers_first l =
      (l.filter fun k => is_modifier k) ++ (l.filter fun k => !is_modifier k) := by
  induction l with
  | nil => rfl
  | cons x xs ih =>
    simp only [sortByOrd, List.foldr_cons] at *
    rw [ih]
    cases hx : is_modifier x with
    | true =>
      have hstep := insertOrd_append modifiers_first x []
        ((xs.filter fun k => is_modifier k) ++ (xs.filter fun k => !is_modifier k))
        (by intro a ha; cases ha)
        (by
          intro b _
          simp only [ne_eq, modifiers_first_eq_gt]
          simp [hx])
      simp only [List.nil_append] at hstep
      simp [hx, hstep]
    | false =>
      have hstep := insertOrd_append modifiers_first x
        (xs.filter fun k => is_modifier k) (xs.filter fun k => !is_modifier k)
        (by
          intro a ha
          rw [modifiers_first_eq_gt]
          simp only [List.mem_filter] at ha
          exact ⟨hx, ha.2⟩)
        (by
          intro b hb
          simp only [ne_eq, modifiers_first_eq_gt]
          simp only [List.mem_filter, Bool.not_eq_true'] at hb
          simp [hb.2])
      simp [hx, hstep]

theorem sortByOrd_modifiers_last_perm (l : List KeyCode) :
    (sortByOrd modifiers_last l).Perm l := by
  rw [sortByOrd_modifiers_last]
  have := List.filter_append_perm (fun k => !is_modifier k) l
  simpa [Bool.not_not] using this

theorem sortByOrd_modifiers_first_perm (l : List KeyCode) :
    (sortByOrd modifiers_first l).Perm l := by
  rw [sortByOrd_modifiers_first]
  exact List.filter_append_perm (fun k => is_modifier k) l

theorem mem_sortByOrd_modifiers_last {l : List KeyCode} {x : KeyCode} :
    x ∈ sortByOrd modifiers_last l ↔ x ∈ l :=
  (sortByOrd_modifiers_last_perm l).mem_iff

theorem mem_sortByOrd_modifiers_first {l : List KeyCode} {x : KeyCode} :
    x ∈ sortByOrd modifiers_first l ↔ x ∈ l :=
  (sortByOrd_modifiers_first_perm l).mem_iff

/-! ### Membership through the desired-state pass -/

theorem mem_foldl_removeNonMod (input : KeySet) :
    ∀ (keys : KeySet) (x : KeyCode),
    x ∈ input.foldl (fun ks i => if is_modifier i then ks else removeKey ks i) keys ↔
      x ∈ keys ∧ ¬(x ∈ input ∧ is_modifier x = false) := by
  induction input with
  | nil => intro keys x; simp
  | cons i is ih =>
    intro keys x
    rw [List.foldl_cons, ih]
    by_cases hi : is_modifier i
    · simp only [if_pos hi, List.mem_cons]
      by_cases hxi : x = i
      · subst hxi
        simp [hi]
      · simp [hxi]
    · simp only [if_neg hi, mem_removeKey, List.mem_cons]
      by_cases hxi : x = i
      · subst hxi
        simp only [Bool.not_eq_true] at hi
        simp [hi]
      · simp only [hxi, false_or, ne_eq, not_false_eq_true, and_true]

theorem mem_foldl_insertNonMod (output : KeySet) :
    ∀ (keys : KeySet) (x : KeyCode),
    x ∈ output.foldl (fun ks o => if is_modifier o then ks else insertKey ks o) keys ↔
      x ∈ keys ∨ (x ∈ output ∧ is_modifier x = false) := by
  induction output with
  | nil => intro keys x; simp
  | cons o os ih =>
    intro keys x
    rw [List.foldl_cons, ih]
    by_cases ho : is_modifier o
    · simp only [if_pos ho, List.mem_cons]
      by_cases hxo : x = o
      · subst hxo
        simp [ho]
      · simp [hxo]
    · simp only [if_neg ho, mem_insertKey, List.mem_cons]
      by_cases hxo : x = o
      · subst hxo
        simp only [Bool.not_eq_true] at ho
        simp [ho]
      · simp only [hxo, false_or]

theorem mem_synthStep (W input output : KeySet) (x : KeyCode) :
    x ∈ synthStep W (Mapping.Remap input output) ↔
      (if isSubset input W then
        ((x ∈ output ∧ is_modifier x = false) ∨
          (x ∈ W ∧ ¬(x ∈ input ∧ is_modifier x = false)))
      else x ∈ W) := by
  unfold synthStep
  by_cases h : isSubset input W
  · simp only [if_pos h]
    rw [mem_foldl_insertNonMod, mem_foldl_removeNonMod]
    tauto
  · simp only [if_neg h]

theorem apply_mapping_eq_synthesize (mappings : List Mapping) (P : KeySet) :
    apply_mapping_to_held_keys mappings P = synthesizeDesiredKeys mappings P := by
  unfold apply_mapping_to_held_keys synthesizeDesiredKeys
  congr 1

theorem mem_synthStep_modifier {W : KeySet} {r : Mapping} {x : KeyCode}
    (hx : is_modifier x = true) :
    x ∈ synthStep W r ↔ x ∈ W := by
  cases r with
  | Remap input output =>
    rw [mem_synthStep]
    by_cases h : isSubset input W
    · simp [h, hx]
    · simp [h]

theorem mem_apply_modifier (mappings : List Mapping) (P : KeySet) (x : KeyCode)
    (hx : is_modifier x = true) :
    x ∈ apply_mapping_to_held_keys mappings P ↔ x ∈ P := by
  rw [apply_mapping_eq_synthesize]
  unfold synthesizeDesiredKeys
  induction mappings generalizing P with
  | nil => simp
  | cons r rs ih =>
    rw [List.foldl_cons, ih (synthStep P r)]
    exact mem_synthStep_modifier hx

theorem nodup_synthStep {W : KeySet} (r : Mapping) (h : W.Nodup) :
    (synthStep W r).Nodup := by
  cases r with
  | Remap input output =>
    unfold synthStep
    by_cases hs : isSubset input W
    · simp only [if_pos hs]
      apply nodup_foldl
      · intro s o hso
        by_cases ho : is_modifier o
        · simpa [ho] using hso
        · simpa [ho] using nodup_insertKey hso
      · apply nodup_foldl
        · intro s i hsi
          by_cases hi : is_modifier i
          · simpa [hi] using hsi
          · simpa [hi] using nodup_removeKey hsi
        · exact h
    · simpa [hs] using h

theorem nodup_apply_mapping (mappings : List Mapping) (P : KeySet)
    (h : P.Nodup) : (apply_mapping_to_held_keys mappings P).Nodup := by
  rw [apply_mapping_eq_synthesize]
  unfold synthesizeDesiredKeys
  exact nodup_foldl synthStep (fun s r hs => nodup_synthStep r hs) mappings P h

/-! ### The synthesized batch and its application to the virtual set -/

theorem compute_eq (mappings : List Mapping) (P V : KeySet) (t : TimeVal) :
    compute_keys_based_on_state mappings P V t =
      ((sortByOrd modifiers_last
          (keyDiff V (apply_mapping_to_held_keys mappings P))).map
        fun k => EvKeyEvent.mk t k KeyEventType.Release)
      ++ ((sortByOrd modifiers_first
          (keyDiff (apply_mapping_to_held_keys mappings P) V)).map
        fun k => EvKeyEvent.mk t k KeyEventType.Press) := rfl

theorem mem_foldl_removeKey (R : List KeyCode) :
    ∀ (V : KeySet) (x : KeyCode),
    x ∈ R.foldl removeKey V ↔ x ∈ V ∧ x ∉ R := by
  induction R with
  | nil => intro V x; simp
  | cons r rs ih =>
    intro V x
    rw [List.foldl_cons, ih, mem_removeKey, List.mem_cons]
    by_cases hxr : x = r
    · subst hxr; simp
    · simp only [hxr, false_or, ne_eq, not_false_eq_true, and_true]

theorem mem_foldl_insertKey (P : List KeyCode) :
    ∀ (V : KeySet) (x : KeyCode),
    x ∈ P.foldl insertKey V ↔ x ∈ V ∨ x ∈ P := by
  induction P with
  | nil => intro V x; simp
  | cons p ps ih =>
    intro V x
    rw [List.foldl_cons, ih, mem_insertKey, List.mem_cons]
    tauto

theorem foldl_applyOutput_release (R : List KeyCode) (V : KeySet) (t : TimeVal) :
    ((R.map fun k => EvKeyEvent.mk t k KeyEventType.Release).foldl
      applyOutput V) = R.foldl removeKey V := by
  rw [List.foldl_map]
  rfl

theorem foldl_applyOutput_press (P : List KeyCode) (V : KeySet) (t : TimeVal) :
    ((P.map fun k => EvKeyEvent.mk t k KeyEventType.Press).foldl
      applyOutput V) = P.foldl insertKey V := by
  rw [List.foldl_map]
  rfl

theorem mem_output_after_compute (mappings : List Mapping) (P V : KeySet)
    (t : TimeVal) (x : KeyCode) :
    x ∈ (compute_keys_based_on_state mappings P V t).foldl applyOutput V ↔
      x ∈ apply_mapping_to_held_keys mappings P := by
  rw [compute_eq, List.foldl_append, foldl_applyOutput_release,
    foldl_applyOutput_press, mem_foldl_insertKey, mem_foldl_removeKey,
    mem_sortByOrd_modifiers_first, mem_sortByOrd_modifiers_last,
    mem_keyDiff, mem_keyDiff]
  tauto

theorem insert_converges (m : Machine) (e : EvKeyEvent)
    (he : e.key_event_type = KeyEventType.Press ∨
      e.key_event_type = KeyEventType.Release) :
    eqSet (m.insert e).1.output_keys
      (apply_mapping_to_held_keys m.mappings (m.insert e).1.input_state) := by
  intro x
  obtain ⟨time, key, kind⟩ := e
  cases he with
  | inl h =>
    simp only at h
    subst h
    exact mem_output_after_compute m.mappings (insertKey m.input_state key)
      m.output_keys time x
  | inr h =>
    simp only at h
    subst h
    exact mem_output_after_compute m.mappings (removeKey m.input_state key)
      m.output_keys time x

/-! ### Machine invariants along a run -/

theorem insert_mappings (m : Machine) (e : EvKeyEvent) :
    (m.insert e).1.mappings = m.mappings := rfl

theorem runEvents_mappings (es : List EvKeyEvent) :
    ∀ m : Machine, (runEvents m es).mappings = m.mappings := by
  induction es with
  | nil => intro m; rfl
  | cons e es ih =>
    intro m
    show (runEvents (m.insert e).1 es).mappings = m.mappings
    rw [ih]
    rfl

theorem nodup_applyOutput (ks : KeySet) (e : EvKeyEvent) (h : ks.Nodup) :
    (applyOutput ks e).Nodup := by
  unfold applyOutput
  split
  · exact nodup_insertKey h
  · exact nodup_insertKey h
  · exact nodup_removeKey h
  · exact h

theorem insert_nodup (m : Machine) (e : EvKeyEvent)
    (hin : m.input_state.Nodup) (hout : m.output_keys.Nodup) :
    (m.insert e).1.input_state.Nodup ∧ (m.insert e).1.output_keys.Nodup := by
  constructor
  · obtain ⟨t, k, kind⟩ := e
    cases kind with
    | Press => exact nodup_insertKey hin
    | Release => exact nodup_removeKey hin
    | Repeat => exact hin
    | Unknown n => exact hin
  · exact nodup_foldl applyOutput (fun s a hs => nodup_applyOutput s a hs)
      _ _ hout

/-- Claim C1: starting from a fresh `Machine`, after any finite sequence of
`insert` calls whose events all have kind `Press` or `Release`, the virtual
held set (`output_keys`) equals (as a `HashSet`, i.e. extensionally) the
desired set `apply_mapping_to_held_keys(mappings, input_state)` immediately
after each `insert` returns.  The quiescent point after the i-th event of
the sequence is captured by splitting the sequence as `pre ++ [e]`. -/
theorem state_convergence (mappings : List Mapping) (pre : List EvKeyEvent)
    (hpre : ∀ ev ∈ pre, ev.key_event_type = KeyEventType.Press ∨
      ev.key_event_type = KeyEventType.Release)
    (e : EvKeyEvent)
    (he : e.key_event_type = KeyEventType.Press ∨
      e.key_event_type = KeyEventType.Release) :
    eqSet ((runEvents (Machine.new mappings) pre).insert e).1.output_keys
      (apply_mapping_to_held_keys mappings
        ((runEvents (Machine.new mappings) pre).insert e).1.input_state) := by
  have h := insert_converges (runEvents (Machine.new mappings) pre) e he
  have h2 : (runEvents (Machine.new mappings) pre).mappings = mappings := by
    rw [runEvents_mappings]
    rfl
  rwa [h2] at h

/-- Witness for `state_convergence` at the empty history and a concrete
press event. -/
theorem state_convergence_witness :
    eqSet ((runEvents (Machine.new []) []).insert
        ⟨⟨0, 0⟩, KeyCode.KEY_OTHER 0, KeyEventType.Press⟩).1.output_keys
      (apply_mapping_to_held_keys []
        ((runEvents (Machine.new []) []).insert
          ⟨⟨0, 0⟩, KeyCode.KEY_OTHER 0, KeyEventType.Press⟩).1.input_state) :=
  state_convergence [] [] (by intro ev hev; cases hev) _ (Or.inl rfl)

/-- Claim C6: one batch returned by `compute_keys_based_on_state` never
contains both a `Release` and a `Press` for the same key.  Stated in the
stronger positive form: any two events of one batch that share a key share
their transition kind (so a `Release` and a `Press` for one key can never
coexist in a batch). -/
theorem no_duplicate_emission (mappings : List Mapping) (P V : KeySet)
    (t : TimeVal) :
    ∀ e1 ∈ compute_keys_based_on_state mappings P V t,
    ∀ e2 ∈ compute_keys_based_on_state mappings P V t,
    e1.ev_key = e2.ev_key → e1.key_event_type = e2.key_event_type := by
  intro e1 h1 e2 h2 hkey
  rw [compute_eq] at h1 h2
  rcases List.mem_append.1 h1 with h1 | h1 <;>
    rcases List.mem_append.1 h2 with h2 | h2
  · obtain ⟨k1, hk1, rfl⟩ := List.mem_map.1 h1
    obtain ⟨k2, hk2, rfl⟩ := List.mem_map.1 h2
    rfl
  · obtain ⟨k1, hk1, rfl⟩ := List.mem_map.1 h1
    obtain ⟨k2, hk2, rfl⟩ := List.mem_map.1 h2
    have hkk : k1 = k2 := hkey
    subst hkk
    rw [mem_sortByOrd_modifiers_last, mem_keyDiff] at hk1
    rw [mem_sortByOrd_modifiers_first, mem_keyDiff] at hk2
    exact absurd hk2.1 hk1.2
  · obtain ⟨k1, hk1, rfl⟩ := List.mem_map.1 h1
    obtain ⟨k2, hk2, rfl⟩ := List.mem_map.1 h2
    have hkk : k1 = k2 := hkey
    subst hkk
    rw [mem_sortByOrd_modifiers_first, mem_keyDiff] at hk1
    rw [mem_sortByOrd_modifiers_last, mem_keyDiff] at hk2
    exact absurd hk1.1 hk2.2
  · obtain ⟨k1, hk1, rfl⟩ := List.mem_map.1 h1
    obtain ⟨k2, hk2, rfl⟩ := List.mem_map.1 h2
    rfl

/-- Witness for `no_duplicate_emission` on a concrete batch containing a
release event. -/
theorem no_duplicate_emission_witness :
    (⟨⟨0, 0⟩, KeyCode.KEY_OTHER 0, KeyEventType.Release⟩ :
        EvKeyEvent).key_event_type =
      (⟨⟨0, 0⟩, KeyCode.KEY_OTHER 0, KeyEventType.Release⟩ :
        EvKeyEvent).key_event_type :=
  no_duplicate_emission [] [] [KeyCode.KEY_OTHER 0] ⟨0, 0⟩
    ⟨⟨0, 0⟩, KeyCode.KEY_OTHER 0, KeyEventType.Release⟩ (by decide)
    ⟨⟨0, 0⟩, KeyCode.KEY_OTHER 0, KeyEventType.Release⟩ (by decide) rfl

/-- Claim C7: `insert` is a total function (it is a plain Lean `def` on all
events, with no error return); a `Release` for a key absent from the
physical held set leaves that set unchanged; and an `Unknown n` event is
passed through unchanged as a one-element batch regardless of the rules. -/
theorem insert_total_release_unknown :
    (∀ (m : Machine) (t : TimeVal) (k : KeyCode), k ∉ m.input_state →
      (m.insert ⟨t, k, KeyEventType.Release⟩).1.input_state = m.input_state) ∧
    (∀ (m : Machine) (t : TimeVal) (k : KeyCode) (n : Int),
      (m.insert ⟨t, k, KeyEventType.Unknown n⟩).2 =
        [⟨t, k, KeyEventType.Unknown n⟩]) := by
  constructor
  · intro m t k hk
    show removeKey m.input_state k = m.input_state
    rw [removeKey, List.filter_eq_self]
    intro a ha
    simp only [decide_eq_true_eq]
    intro hak
    subst hak
    exact hk ha
  · intro m t k n
    rfl

/-- Witness for `insert_total_release_unknown` on a fresh machine. -/
theorem insert_total_release_unknown_witness :
    KeyCode.KEY_OTHER 0 ∉ (Machine.new []).input_state ∧
    ((Machine.new []).insert
        ⟨⟨0, 0⟩, KeyCode.KEY_OTHER 0, KeyEventType.Release⟩).1.input_state =
      (Machine.new []).input_state :=
  ⟨by decide,
    insert_total_release_unknown.1 (Machine.new []) ⟨0, 0⟩
      (KeyCode.KEY_OTHER 0) (by decide)⟩

/-- Counterexample for claim C8 as stated: the round-trip
`from_value (k.value()) = k` fails for the kind `Unknown 1`, whose stored
value `1` decodes to `Press`, not back to `Unknown 1` (likewise for
`Unknown 0` and `Unknown 2`). -/
theorem transition_kind_roundtrip_counterexample :
    KeyEventType.from_value (KeyEventType.value (KeyEventType.Unknown 1)) ≠
      KeyEventType.Unknown 1 := by
  decide

/-- Claim C8 (amended): `from_value` maps 0, 1, 2 to the three named kinds
and any other integer `n` to `Unknown n`; `value` returns 0, 1, 2 for the
named kinds and the stored integer for `Unknown`; `from_value n |>.value`
equals `n` for every integer; and `from_value (k.value) = k` for every kind
`k` except the unreachable-by-decoding kinds `Unknown 0`, `Unknown 1`,
`Unknown 2`. -/
theorem transition_kind_roundtrip :
    KeyEventType.from_value 0 = KeyEventType.Release ∧
    KeyEventType.from_value 1 = KeyEventType.Press ∧
    KeyEventType.from_value 2 = KeyEventType.Repeat ∧
    (∀ n : Int, n ≠ 0 → n ≠ 1 → n ≠ 2 →
      KeyEventType.from_value n = KeyEventType.Unknown n) ∧
    KeyEventType.value KeyEventType.Release = 0 ∧
    KeyEventType.value KeyEventType.Press = 1 ∧
    KeyEventType.value KeyEventType.Repeat = 2 ∧
    (∀ n : Int, KeyEventType.value (KeyEventType.Unknown n) = n) ∧
    (∀ n : Int, KeyEventType.value (KeyEventType.from_value n) = n) ∧
    (∀ k : KeyEventType,
      (∀ n : Int, k = KeyEventType.Unknown n → n ≠ 0 ∧ n ≠ 1 ∧ n ≠ 2) →
      KeyEventType.from_value (KeyEventType.value k) = k) := by
  refine ⟨rfl, rfl, rfl, ?_, rfl, rfl, rfl, fun n => rfl, ?_, ?_⟩
  · intro n h0 h1 h2
    simp [KeyEventType.from_value, h0, h1, h2]
  · intro n
    simp only [KeyEventType.from_value]
    split_ifs with h0 h1 h2
    · subst h0; rfl
    · subst h1; rfl
    · subst h2; rfl
    · rfl
  · intro k hk
    cases k with
    | Release => rfl
    | Press => rfl
    | Repeat => rfl
    | Unknown n =>
      obtain ⟨h0, h1, h2⟩ := hk n rfl
      simp [KeyEventType.value, KeyEventType.from_value, h0, h1, h2]

/-- Witness for `transition_kind_roundtrip` at the integer 5. -/
theorem transition_kind_roundtrip_witness :
    KeyEventType.from_value 5 = KeyEventType.Unknown 5 ∧
    KeyEventType.from_value (KeyEventType.value (KeyEventType.Unknown 5)) =
      KeyEventType.Unknown 5 :=
  ⟨transition_kind_roundtrip.2.2.2.1 5 (by decide) (by decide) (by decide),
    transition_kind_roundtrip.2.2.2.2.2.2.2.2.2 (KeyEventType.Unknown 5)
      (by
        intro n h
        cases h
        exact ⟨by decide, by decide, by decide⟩)⟩

/-- Claim C9: the desired-state pass neither adds nor removes modifier
keys: a modifier key is in `apply_mapping_to_held_keys(rules, P)` exactly
when it is in `P`. -/
theorem modifier_preservation (mappings : List Mapping) (P : KeySet)
    (x : KeyCode) (hx : is_modifier x = true) :
    x ∈ apply_mapping_to_held_keys mappings P ↔ x ∈ P :=
  mem_apply_modifier mappings P x hx

/-- Witness for `modifier_preservation` at `KEY_LEFTCTRL`. -/
theorem modifier_preservation_witness :
    KeyCode.KEY_LEFTCTRL ∈
        apply_mapping_to_held_keys [] [KeyCode.KEY_LEFTCTRL] ↔
      KeyCode.KEY_LEFTCTRL ∈ [KeyCode.KEY_LEFTCTRL] :=
  modifier_preservation [] [KeyCode.KEY_LEFTCTRL] KeyCode.KEY_LEFTCTRL rfl

/-- Claim C10: an `insert` of a `Repeat` or `Unknown` event leaves the
physical held set (`input_state`) unchanged, and an `insert` of an
`Unknown` event additionally leaves the virtual held set (`output_keys`)
unchanged. -/
theorem insert_frame_nonpress (m : Machine) (t t' : TimeVal)
    (k k' : KeyCode) (n : Int) :
    ((m.insert ⟨t, k, KeyEventType.Repeat⟩).1.input_state = m.input_state) ∧
    ((m.insert ⟨t', k', KeyEventType.Unknown n⟩).1.input_state =
      m.input_state) ∧
    ((m.insert ⟨t', k', KeyEventType.Unknown n⟩).1.output_keys =
      m.output_keys) :=
  ⟨rfl, rfl, rfl⟩

/-! ### Shape and order of one synthesized batch (claim C2) -/

theorem pairwise_rank_of_const (L : List EvKeyEvent) (c : Nat)
    (h : ∀ e ∈ L, emissionRank e = c) :
    L.Pairwise fun e1 e2 => emissionRank e1 ≤ emissionRank e2 :=
  List.pairwise_of_forall_mem_list fun a ha b hb => by
    rw [h a ha, h b hb]

theorem releaseEvent_injective (t : TimeVal) :
    Function.Injective fun k => EvKeyEvent.mk t k KeyEventType.Release := by
  intro a b h
  injection h with h1 h2 h3

theorem pressEvent_injective (t : TimeVal) :
    Function.Injective fun k => EvKeyEvent.mk t k KeyEventType.Press := by
  intro a b h
  injection h with h1 h2 h3

/-- Claim C2: for every rule list, physical held set `P`, virtual held set
`V` (both duplicate-free, as `HashSet`s are) and timestamp `t`, the batch
contains exactly one `Release` for each key of `V` minus desired and one
`Press` for each key of desired minus `V`; every event carries timestamp
`t`; and the batch is sorted by `emissionRank`, which says precisely that
all releases precede all presses, non-modifier releases precede modifier
releases, and modifier presses precede non-modifier presses. -/
theorem event_synthesis_shape (mappings : List Mapping) (P V : KeySet)
    (t : TimeVal) (hP : P.Nodup) (hV : V.Nodup) :
    (∀ k : KeyCode,
      (compute_keys_based_on_state mappings P V t).count
          ⟨t, k, KeyEventType.Release⟩ =
        if k ∈ V ∧ k ∉ apply_mapping_to_held_keys mappings P then 1 else 0) ∧
    (∀ k : KeyCode,
      (compute_keys_based_on_state mappings P V t).count
          ⟨t, k, KeyEventType.Press⟩ =
        if k ∈ apply_mapping_to_held_keys mappings P ∧ k ∉ V then 1
        else 0) ∧
    (∀ e ∈ compute_keys_based_on_state mappings P V t, e.time = t) ∧
    (compute_keys_based_on_state mappings P V t).Pairwise
      fun e1 e2 => emissionRank e1 ≤ emissionRank e2 := by
  refine ⟨?_, ?_, ?_, ?_⟩
  · intro k
    rw [compute_eq, List.count_append]
    have hzero : List.count (⟨t, k, KeyEventType.Release⟩ : EvKeyEvent)
        ((sortByOrd modifiers_first
          (keyDiff (apply_mapping_to_held_keys mappings P) V)).map
            fun k' => EvKeyEvent.mk t k' KeyEventType.Press) = 0 := by
      apply List.count_eq_zero_of_not_mem
      intro hmem
      obtain ⟨k', _, heq⟩ := List.mem_map.1 hmem
      simp at heq
    rw [hzero, Nat.add_zero]
    rw [List.count_map_of_injective _ _ (releaseEvent_injective t) k]
    rw [(sortByOrd_modifiers_last_perm _).count_eq]
    by_cases hk : k ∈ V ∧ k ∉ apply_mapping_to_held_keys mappings P
    · rw [if_pos hk]
      exact List.count_eq_one_of_mem (nodup_keyDiff hV) (mem_keyDiff.2 hk)
    · rw [if_neg hk]
      apply List.count_eq_zero_of_not_mem
      intro hmem
      exact hk (mem_keyDiff.1 hmem)
  · intro k
    rw [compute_eq, List.count_append]
    have hzero : List.count (⟨t, k, KeyEventType.Press⟩ : EvKeyEvent)
        ((sortByOrd modifiers_last
          (keyDiff V (apply_mapping_to_held_keys mappings P))).map
            fun k' => EvKeyEvent.mk t k' KeyEventType.Release) = 0 := by
      apply List.count_eq_zero_of_not_mem
      intro hmem
      obtain ⟨k', _, heq⟩ := List.mem_map.1 hmem
      simp at heq
    rw [hzero, Nat.zero_add]
    rw [List.count_map_of_injective _ _ (pressEvent_injective t) k]
    rw [(sortByOrd_modifiers_first_perm _).count_eq]
    by_cases hk : k ∈ apply_mapping_to_held_keys mappings P ∧ k ∉ V
    · rw [if_pos hk]
      exact List.count_eq_one_of_mem
        (nodup_keyDiff (nodup_apply_mapping mappings P hP))
        (mem_keyDiff.2 hk)
    · rw [if_neg hk]
      apply List.count_eq_zero_of_not_mem
      intro hmem
      exact hk (mem_keyDiff.1 hmem)
  · intro e he
    rw [compute_eq] at he
    rcases List.mem_append.1 he with h | h <;>
      obtain ⟨k', _, rfl⟩ := List.mem_map.1 h <;> rfl
  · rw [compute_eq, sortByOrd_modifiers_last, sortByOrd_modifiers_first,
      List.map_append, List.map_append]
    have r0 : ∀ e ∈ (List.filter (fun k => !is_modifier k)
        (keyDiff V (apply_mapping_to_held_keys mappings P))).map
          (fun k => EvKeyEvent.mk t k KeyEventType.Release),
        emissionRank e = 0 := by
      intro e he
      obtain ⟨k', hk', rfl⟩ := List.mem_map.1 he
      simp only [List.mem_filter, Bool.not_eq_true'] at hk'
      simp [emissionRank, hk'.2]
    have r1 : ∀ e ∈ (List.filter (fun k => is_modifier k)
        (keyDiff V (apply_mapping_to_held_keys mappings P))).map
          (fun k => EvKeyEvent.mk t k KeyEventType.Release),
        emissionRank e = 1 := by
      intro e he
      obtain ⟨k', hk', rfl⟩ := List.mem_map.1 he
      simp only [List.mem_filter] at hk'
      simp [emissionRank, hk'.2]
    have r2 : ∀ e ∈ (List.filter (fun k => is_modifier k)
        (keyDiff (apply_mapping_to_held_keys mappings P) V)).map
          (fun k => EvKeyEvent.mk t k KeyEventType.Press),
        emissionRank e = 2 := by
      intro e he
      obtain ⟨k', hk', rfl⟩ := List.mem_map.1 he
      simp only [List.mem_filter] at hk'
      simp [emissionRank, hk'.2]
    have r3 : ∀ e ∈ (List.filter (fun k => !is_modifier k)
        (keyDiff (apply_mapping_to_held_keys mappings P) V)).map
          (fun k => EvKeyEvent.mk t k KeyEventType.Press),
        emissionRank e = 3 := by
      intro e he
      obtain ⟨k', hk', rfl⟩ := List.mem_map.1 he
      simp only [List.mem_filter, Bool.not_eq_true'] at hk'
      simp [emissionRank, hk'.2]
    refine List.pairwise_append.2
      ⟨List.pairwise_append.2 ⟨pairwise_rank_of_const _ 0 r0,
          pairwise_rank_of_const _ 1 r1, ?_⟩,
        List.pairwise_append.2 ⟨pairwise_rank_of_const _ 2 r2,
          pairwise_rank_of_const _ 3 r3, ?_⟩, ?_⟩
    · intro a ha b hb
      show emissionRank a ≤ emissionRank b
      rw [r0 a ha, r1 b hb]
      decide
    · intro a ha b hb
      show emissionRank a ≤ emissionRank b
      rw [r2 a ha, r3 b hb]
      decide
    · intro a ha b hb
      show emissionRank a ≤ emissionRank b
      rcases List.mem_append.1 ha with ha | ha <;>
        rcases List.mem_append.1 hb with hb | hb
      · rw [r0 a ha, r2 b hb]; decide
      · rw [r0 a ha, r3 b hb]; decide
      · rw [r1 a ha, r2 b hb]; decide
      · rw [r1 a ha, r3 b hb]; decide

/-- Witness for `event_synthesis_shape` on a concrete nonempty batch. -/
theorem event_synthesis_shape_witness :
    ([] : List KeyCode).Nodup ∧
    ([KeyCode.KEY_OTHER 0] : List KeyCode).Nodup ∧
    ∀ e ∈ compute_keys_based_on_state [] [] [KeyCode.KEY_OTHER 0] ⟨0, 0⟩,
      e.time = (⟨0, 0⟩ : TimeVal) :=
  ⟨List.nodup_nil, by decide,
    (event_synthesis_shape [] [] [KeyCode.KEY_OTHER 0] ⟨0, 0⟩
      List.nodup_nil (by decide)).2.2.1⟩

/-- Claim C3: the desired-state computation is the spec's single pass.  The
first conjunct identifies `apply_mapping_to_held_keys` (from the source)
with `synthesizeDesiredKeys` (worded from the spec): one `foldl` over the
rules in configuration order, so each rule's subset test observes the
cumulative effect of all earlier rules.  The second conjunct characterizes
one step: when the trigger is a subset of the working set, exactly the
non-modifier trigger keys are removed and exactly the non-modifier produced
keys are inserted (a modifier produced key is never inserted, a modifier
trigger key is never removed).  The third conjunct shows a non-modifier
output of an earlier rule satisfying a later rule's trigger in the same
pass; the fourth shows the pass is linear (a rule is evaluated at most
once, so an output feeding an *earlier* rule's trigger does not re-fire
it). -/
theorem desired_state_computation :
    (∀ (rules : List Mapping) (P : KeySet),
      apply_mapping_to_held_keys rules P = synthesizeDesiredKeys rules P) ∧
    (∀ (W input output : KeySet) (k : KeyCode),
      k ∈ synthStep W (Mapping.Remap input output) ↔
        (if isSubset input W then
          ((k ∈ output ∧ is_modifier k = false) ∨
            (k ∈ W ∧ ¬(k ∈ input ∧ is_modifier k = false)))
        else k ∈ W)) ∧
    apply_mapping_to_held_keys
        [Mapping.Remap [KeyCode.KEY_OTHER 0] [KeyCode.KEY_OTHER 1],
          Mapping.Remap [KeyCode.KEY_OTHER 1] [KeyCode.KEY_OTHER 2]]
        [KeyCode.KEY_OTHER 0] = [KeyCode.KEY_OTHER 2] ∧
    apply_mapping_to_held_keys
        [Mapping.Remap [KeyCode.KEY_OTHER 1] [KeyCode.KEY_OTHER 2],
          Mapping.Remap [KeyCode.KEY_OTHER 0] [KeyCode.KEY_OTHER 1]]
        [KeyCode.KEY_OTHER 0] = [KeyCode.KEY_OTHER 1] :=
  ⟨apply_mapping_eq_synthesize, mem_synthStep, by decide, by decide⟩

/-- Claim C4: `lookup_mapping` is a first-match linear scan, and a `Repeat`
insert either re-stamps the matched rule's produced keys as `Repeat` events
or passes the event through unchanged.  Conjunct 1: no match returned iff
no rule qualifies (trigger contains the code and is a subset of the
physical held set).  Conjunct 2: a returned match qualifies and everything
before it in list order does not.  Conjuncts 3 and 4: the batch returned by
`insert` for a `Repeat` event in the two cases. -/
theorem repeat_first_match :
    (∀ (mappings : List Mapping) (P : KeySet) (code : KeyCode),
      lookup_mapping mappings P code = none ↔
        ∀ input output, Mapping.Remap input output ∈ mappings →
          ¬(code ∈ input ∧ ∀ x ∈ input, x ∈ P)) ∧
    (∀ (mappings : List Mapping) (P : KeySet) (code : KeyCode)
        (input output : KeySet),
      lookup_mapping mappings P code = some (Mapping.Remap input output) →
        (code ∈ input ∧ ∀ x ∈ input, x ∈ P) ∧
        ∃ l1 l2, mappings = l1 ++ Mapping.Remap input output :: l2 ∧
          ∀ input' output', Mapping.Remap input' output' ∈ l1 →
            ¬(code ∈ input' ∧ ∀ x ∈ input', x ∈ P)) ∧
    (∀ (m : Machine) (t : TimeVal) (k : KeyCode) (input output : KeySet),
      lookup_mapping m.mappings m.input_state k =
          some (Mapping.Remap input output) →
        (m.insert ⟨t, k, KeyEventType.Repeat⟩).2 =
          output.map fun o => ⟨t, o, KeyEventType.Repeat⟩) ∧
    (∀ (m : Machine) (t : TimeVal) (k : KeyCode),
      lookup_mapping m.mappings m.input_state k = none →
        (m.insert ⟨t, k, KeyEventType.Repeat⟩).2 =
          [⟨t, k, KeyEventType.Repeat⟩]) := by
  refine ⟨?_, ?_, ?_, ?_⟩
  · intro mappings P code
    rw [lookup_mapping, List.find?_eq_none]
    constructor
    · intro h input output hm hq
      apply h _ hm
      simp only [containsKey, isSubset, Bool.and_eq_true, decide_eq_true_eq]
      exact hq
    · intro h m0 hm0
      cases m0 with
      | Remap input output =>
        intro hpred
        simp only [containsKey, isSubset, Bool.and_eq_true,
          decide_eq_true_eq] at hpred
        exact h input output hm0 hpred
  · intro mappings P code input output
    induction mappings with
    | nil =>
      intro h
      simp [lookup_mapping] at h
    | cons m0 rest ih =>
      cases m0 with
      | Remap input0 output0 =>
        intro h
        rw [lookup_mapping, List.find?_cons] at h
        by_cases hp : (containsKey input0 code && isSubset input0 P) = true
        · simp only [hp] at h
          injection h with h1
          injection h1 with h2 h3
          subst h2
          subst h3
          refine ⟨?_, [], rest, rfl, ?_⟩
          · simpa only [containsKey, isSubset, Bool.and_eq_true,
              decide_eq_true_eq] using hp
          · intro input' output' hmem
            simp at hmem
        · simp only [Bool.not_eq_true] at hp
          simp only [hp] at h
          obtain ⟨hq, l1, l2, heq, hnone⟩ := ih h
          refine ⟨hq, Mapping.Remap input0 output0 :: l1, l2,
            by rw [heq, List.cons_append], ?_⟩
          intro input' output' hmem
          rcases List.mem_cons.1 hmem with heq0 | hmem'
          · injection heq0 with h2 h3
            subst h2
            intro hq'
            have : (containsKey input' code && isSubset input' P) = true := by
              simp only [containsKey, isSubset, Bool.and_eq_true,
                decide_eq_true_eq]
              exact hq'
            rw [this] at hp
            cases hp
          · exact hnone input' output' hmem'
  · intro m t k input output h
    have hstep : (m.insert ⟨t, k, KeyEventType.Repeat⟩).2 =
        (match lookup_mapping m.mappings m.input_state k with
          | some (Mapping.Remap _ output) =>
            output.map fun o => (⟨t, o, KeyEventType.Repeat⟩ : EvKeyEvent)
          | none => [⟨t, k, KeyEventType.Repeat⟩]) := rfl
    rw [hstep, h]
  · intro m t k h
    have hstep : (m.insert ⟨t, k, KeyEventType.Repeat⟩).2 =
        (match lookup_mapping m.mappings m.input_state k with
          | some (Mapping.Remap _ output) =>
            output.map fun o => (⟨t, o, KeyEventType.Repeat⟩ : EvKeyEvent)
          | none => [⟨t, k, KeyEventType.Repeat⟩]) := rfl
    rw [hstep, h]

/-- Witness for `repeat_first_match`: a repeat of the trigger key of the
single configured rule is resolved to one repeat of the produced key. -/
theorem repeat_first_match_witness :
    ((Machine.mk [KeyCode.KEY_OTHER 0] []
        [Mapping.Remap [KeyCode.KEY_OTHER 0] [KeyCode.KEY_OTHER 1]]).insert
      ⟨⟨0, 0⟩, KeyCode.KEY_OTHER 0, KeyEventType.Repeat⟩).2 =
      [⟨⟨0, 0⟩, KeyCode.KEY_OTHER 1, KeyEventType.Repeat⟩] :=
  repeat_first_match.2.2.1
    (Machine.mk [KeyCode.KEY_OTHER 0] []
      [Mapping.Remap [KeyCode.KEY_OTHER 0] [KeyCode.KEY_OTHER 1]])
    ⟨0, 0⟩ (KeyCode.KEY_OTHER 0) [KeyCode.KEY_OTHER 0] [KeyCode.KEY_OTHER 1]
    (by decide)

/-! ### Passthrough with an empty rule list (claim C5) -/

theorem apply_mapping_nil (P : KeySet) :
    apply_mapping_to_held_keys [] P = P := rfl

theorem filter_eq_singleton_of_nodup {l : List KeyCode} {p : KeyCode → Bool}
    {a : KeyCode} (hnd : l.Nodup) (ha : a ∈ l)
    (hp : ∀ x ∈ l, (p x = true ↔ x = a)) : l.filter p = [a] := by
  induction l with
  | nil => cases ha
  | cons x xs ih =>
    rw [List.nodup_cons] at hnd
    rcases List.mem_cons.1 ha with hax | hmem
    · subst hax
      rw [List.filter_cons_of_pos ((hp a (List.mem_cons_self a xs)).2 rfl)]
      have hnil : xs.filter p = [] := by
        rw [List.filter_eq_nil_iff]
        intro b hb hpb
        have hba := (hp b (List.mem_cons_of_mem _ hb)).1 hpb
        subst hba
        exact hnd.1 hb
      rw [hnil]
    · have hxa : x ≠ a := by
        intro hxa
        subst hxa
        exact hnd.1 hmem
      have hx : ¬p x = true := by
        intro hpx
        exact hxa ((hp x (List.mem_cons_self x xs)).1 hpx)
      rw [List.filter_cons_of_neg hx]
      exact ih hnd.2 hmem fun b hb => hp b (List.mem_cons_of_mem _ hb)

/-- With no rules configured, the machine invariant: the virtual held set
mirrors the physical held set (extensionally), and both stay
duplicate-free, along any run of `Press`/`Release` events. -/
theorem runEvents_empty_invariant :
    ∀ (es : List EvKeyEvent) (m : Machine),
      (∀ e ∈ es, e.key_event_type = KeyEventType.Press ∨
        e.key_event_type = KeyEventType.Release) →
      m.mappings = [] → eqSet m.output_keys m.input_state →
      m.input_state.Nodup → m.output_keys.Nodup →
      eqSet (runEvents m es).output_keys (runEvents m es).input_state ∧
        (runEvents m es).input_state.Nodup ∧
        (runEvents m es).output_keys.Nodup := by
  intro es
  induction es with
  | nil => intro m _ _ h1 h2 h3; exact ⟨h1, h2, h3⟩
  | cons e es ih =>
    intro m hes hm h1 h2 h3
    have he := hes e (List.mem_cons_self e es)
    have hnodup := insert_nodup m e h2 h3
    have hconv := insert_converges m e he
    rw [hm] at hconv
    have hconv' : eqSet (m.insert e).1.output_keys
        (m.insert e).1.input_state := hconv
    exact ih (m.insert e).1 (fun e' he' => hes e' (List.mem_cons_of_mem _ he'))
      (by rw [insert_mappings, hm]) hconv' hnodup.1 hnodup.2

/-- One step of the amended passthrough property over any machine whose
state satisfies the empty-rules invariant. -/
theorem passthrough_step (m : Machine) (hm : m.mappings = [])
    (hVP : eqSet m.output_keys m.input_state) (hVnd : m.output_keys.Nodup)
    (k : KeyCode) (t : TimeVal) :
    (k ∉ m.input_state → (m.insert ⟨t, k, KeyEventType.Press⟩).2 =
      [⟨t, k, KeyEventType.Press⟩]) ∧
    (k ∈ m.input_state → (m.insert ⟨t, k, KeyEventType.Release⟩).2 =
      [⟨t, k, KeyEventType.Release⟩]) ∧
    (k ∈ m.input_state →
      (m.insert ⟨t, k, KeyEventType.Press⟩).2 = []) ∧
    (k ∉ m.input_state →
      (m.insert ⟨t, k, KeyEventType.Release⟩).2 = []) := by
  have hVPnil : keyDiff m.output_keys m.input_state = [] := by
    rw [keyDiff, List.filter_eq_nil_iff]
    intro v hv
    simp only [decide_eq_true_eq]
    exact not_not_intro ((hVP v).1 hv)
  have hPVnil : keyDiff m.input_state m.output_keys = [] := by
    rw [keyDiff, List.filter_eq_nil_iff]
    intro v hv
    simp only [decide_eq_true_eq]
    exact not_not_intro ((hVP v).2 hv)
  refine ⟨?_, ?_, ?_, ?_⟩
  · intro hk
    have h2 : (m.insert ⟨t, k, KeyEventType.Press⟩).2 =
        compute_keys_based_on_state m.mappings (insertKey m.input_state k)
          m.output_keys t := rfl
    rw [h2, hm, compute_eq, apply_mapping_nil]
    have hrel : keyDiff m.output_keys (insertKey m.input_state k) = [] := by
      rw [keyDiff, List.filter_eq_nil_iff]
      intro v hv
      simp only [decide_eq_true_eq]
      exact not_not_intro (mem_insertKey.2 (Or.inr ((hVP v).1 hv)))
    have hprs : keyDiff (insertKey m.input_state k) m.output_keys = [k] := by
      rw [insertKey, if_neg hk, keyDiff, List.filter_append]
      have hnil : m.input_state.filter
          (fun k' => decide (k' ∉ m.output_keys)) = [] := by
        rw [List.filter_eq_nil_iff]
        intro v hv
        simp only [decide_eq_true_eq]
        exact not_not_intro ((hVP v).2 hv)
      have hone : [k].filter (fun k' => decide (k' ∉ m.output_keys)) = [k] := by
        rw [List.filter_eq_self]
        intro a ha
        simp only [List.mem_singleton] at ha
        subst ha
        simp only [decide_eq_true_eq]
        intro hkV
        exact hk ((hVP a).1 hkV)
      rw [hnil, hone, List.nil_append]
    rw [hrel, hprs]
    rfl
  · intro hk
    have h2 : (m.insert ⟨t, k, KeyEventType.Release⟩).2 =
        compute_keys_based_on_state m.mappings (removeKey m.input_state k)
          m.output_keys t := rfl
    rw [h2, hm, compute_eq, apply_mapping_nil]
    have hrel : keyDiff m.output_keys (removeKey m.input_state k) = [k] := by
      rw [keyDiff]
      apply filter_eq_singleton_of_nodup hVnd ((hVP k).2 hk)
      intro x hx
      simp only [decide_eq_true_eq]
      constructor
      · intro hnot
        by_contra hxk
        apply hnot
        rw [mem_removeKey]
        exact ⟨(hVP x).1 hx, hxk⟩
      · intro hxe
        subst hxe
        rw [mem_removeKey]
        intro hcon
        exact hcon.2 rfl
    have hprs : keyDiff (removeKey m.input_state k) m.output_keys = [] := by
      rw [keyDiff, List.filter_eq_nil_iff]
      intro v hv
      simp only [decide_eq_true_eq]
      rw [mem_removeKey] at hv
      exact not_not_intro ((hVP v).2 hv.1)
    rw [hrel, hprs]
    rfl
  · intro hk
    have h2 : (m.insert ⟨t, k, KeyEventType.Press⟩).2 =
        compute_keys_based_on_state m.mappings (insertKey m.input_state k)
          m.output_keys t := rfl
    rw [h2, hm, compute_eq, apply_mapping_nil, insertKey, if_pos hk,
      hVPnil, hPVnil]
    rfl
  · intro hk
    have h2 : (m.insert ⟨t, k, KeyEventType.Release⟩).2 =
        compute_keys_based_on_state m.mappings (removeKey m.input_state k)
          m.output_keys t := rfl
    have hrm : removeKey m.input_state k = m.input_state := by
      rw [removeKey, List.filter_eq_self]
      intro a ha
      simp only [decide_eq_true_eq]
      intro hak
      subst hak
      exact hk ha
    rw [h2, hm, compute_eq, apply_mapping_nil, hrm, hVPnil, hPVnil]
    rfl

/-- Counterexample for claim C5 as stated: on a fresh machine with no
rules, inserting a `Release` for a key that is not physically held returns
the empty batch, not the one-element passthrough batch the claim
promises. -/
theorem idempotent_passthrough_counterexample :
    ((Machine.new []).insert
        ⟨⟨0, 0⟩, KeyCode.KEY_OTHER 0, KeyEventType.Release⟩).2 = [] ∧
    ((Machine.new []).insert
        ⟨⟨0, 0⟩, KeyCode.KEY_OTHER 0, KeyEventType.Release⟩).2 ≠
      [⟨⟨0, 0⟩, KeyCode.KEY_OTHER 0, KeyEventType.Release⟩] := by
  decide

/-- Claim C5 (amended): for a machine constructed with an empty rule
sequence and fed any sequence of `Press`/`Release` events, an insert of a
`Press` of a key not currently physically held, or of a `Release` of a key
currently physically held, returns exactly the one-element batch with that
event unchanged; a redundant `Press` (key already held) or redundant
`Release` (key not held) returns the empty batch instead. -/
theorem idempotent_passthrough_amended (pre : List EvKeyEvent)
    (hpre : ∀ e ∈ pre, e.key_event_type = KeyEventType.Press ∨
      e.key_event_type = KeyEventType.Release)
    (k : KeyCode) (t : TimeVal) :
    (k ∉ (runEvents (Machine.new []) pre).input_state →
      ((runEvents (Machine.new []) pre).insert
        ⟨t, k, KeyEventType.Press⟩).2 = [⟨t, k, KeyEventType.Press⟩]) ∧
    (k ∈ (runEvents (Machine.new []) pre).input_state →
      ((runEvents (Machine.new []) pre).insert
        ⟨t, k, KeyEventType.Release⟩).2 = [⟨t, k, KeyEventType.Release⟩]) ∧
    (k ∈ (runEvents (Machine.new []) pre).input_state →
      ((runEvents (Machine.new []) pre).insert
        ⟨t, k, KeyEventType.Press⟩).2 = []) ∧
    (k ∉ (runEvents (Machine.new []) pre).input_state →
      ((runEvents (Machine.new []) pre).insert
        ⟨t, k, KeyEventType.Release⟩).2 = []) := by
  obtain ⟨hVP, hPnd, hVnd⟩ := runEvents_empty_invariant pre (Machine.new [])
    hpre rfl (fun x => Iff.rfl) List.nodup_nil List.nodup_nil
  obtain ⟨h1, h2, h3, h4⟩ := passthrough_step (runEvents (Machine.new []) pre)
    (by rw [runEvents_mappings]; rfl) hVP hVnd k t
  exact ⟨h1, h2, h3, h4⟩

/-- Witness for `idempotent_passthrough_amended`: on the fresh machine, a
first press is passed through unchanged, while a release of the un-held
key yields the empty batch. -/
theorem idempotent_passthrough_amended_witness :
    ((runEvents (Machine.new []) []).insert
        ⟨⟨0, 0⟩, KeyCode.KEY_OTHER 0, KeyEventType.Press⟩).2 =
      [⟨⟨0, 0⟩, KeyCode.KEY_OTHER 0, KeyEventType.Press⟩] ∧
    ((runEvents (Machine.new []) []).insert
        ⟨⟨0, 0⟩, KeyCode.KEY_OTHER 0, KeyEventType.Release⟩).2 = [] :=
  ⟨(idempotent_passthrough_amended [] (by intro e he; cases he)
      (KeyCode.KEY_OTHER 0) ⟨0, 0⟩).1 (by decide),
    (idempotent_passthrough_amended [] (by intro e he; cases he)
      (KeyCode.KEY_OTHER 0) ⟨0, 0⟩).2.2.2 (by decide)⟩

end Evremap
